import Mathlib

set_option maxRecDepth 40000

/-!
# Verification of a consistent-hashing ring

Shallow embedding of `src/sample-implementation.js` (class `ConsistentHash`):
the MD5-based position hash, the ring state (`virtualNodes`, `ring`,
`servers`, `sortedPositions`), and the operations `addServer`,
`removeServer`, `updateSortedPositions`, `getServer`, `getDistribution`.

JavaScript data structures are modelled as follows:
* `Map` (position → server) becomes an association list `List (Nat × String)`
  with unique keys; `Map.set` overwrites the value in place when the key is
  present and appends otherwise, `Map.delete` removes the entry, `Map.get`
  looks the key up.
* `Set` becomes a duplicate-free `List String`; `Set.add` appends when
  absent, `Set.delete` filters.
* numbers are `Nat` with explicit `% 2^32` where the source's 32-bit
  arithmetic matters (inside the MD5 compression function).
* `getServer`'s `throw new Error("No servers available")` becomes
  `Except String`; a successful lookup returns `Map.get`'s result, i.e. an
  `Option String` (`none` models JavaScript's `undefined`).
-/

namespace MD5

/-- 32-bit modular addition. -/
def add32 (a b : Nat) : Nat := (a + b) % 4294967296

/-- 32-bit bitwise complement. -/
def not32 (a : Nat) : Nat := Nat.xor a 4294967295

/-- Rotate a 32-bit word left by `s` bits (`0 ≤ s < 32`). -/
def rotl32 (x s : Nat) : Nat := (x * 2 ^ s + x / 2 ^ (32 - s)) % 4294967296

/-- The 64 MD5 round constants `⌊2^32·|sin(i+1)|⌋`. -/
def K : List Nat := [
  3614090360, 3905402710, 606105819, 3250441966, 4118548399, 1200080426, 2821735955, 4249261313,
  1770035416, 2336552879, 4294925233, 2304563134, 1804603682, 4254626195, 2792965006, 1236535329,
  4129170786, 3225465664, 643717713, 3921069994, 3593408605, 38016083, 3634488961, 3889429448,
  568446438, 3275163606, 4107603335, 1163531501, 2850285829, 4243563512, 1735328473, 2368359562,
  4294588738, 2272392833, 1839030562, 4259657740, 2763975236, 1272893353, 4139469664, 3200236656,
  681279174, 3936430074, 3572445317, 76029189, 3654602809, 3873151461, 530742520, 3299628645,
  4096336452, 1126891415, 2878612391, 4237533241, 1700485571, 2399980690, 4293915773, 2240044497,
  1873313359, 4264355552, 2734768916, 1309151649, 4149444226, 3174756917, 718787259, 3951481745]

/-- The 64 MD5 per-round left-rotation amounts. -/
def S : List Nat := [
  7, 12, 17, 22, 7, 12, 17, 22,
  7, 12, 17, 22, 7, 12, 17, 22,
  5, 9, 14, 20, 5, 9, 14, 20,
  5, 9, 14, 20, 5, 9, 14, 20,
  4, 11, 16, 23, 4, 11, 16, 23,
  4, 11, 16, 23, 4, 11, 16, 23,
  6, 10, 15, 21, 6, 10, 15, 21,
  6, 10, 15, 21, 6, 10, 15, 21]

/-- The four 32-bit words of the MD5 internal state. -/
structure State where
  a : Nat
  b : Nat
  c : Nat
  d : Nat
deriving Repr, DecidableEq

/-- One MD5 round: round `i` applied to state `st` with message block `M`
(16 little-endian 32-bit words). -/
def step (M : List Nat) (st : State) (i : Nat) : State :=
  let f :=
    if i < 16 then Nat.lor (Nat.land st.b st.c) (Nat.land (not32 st.b) st.d)
    else if i < 32 then Nat.lor (Nat.land st.d st.b) (Nat.land (not32 st.d) st.c)
    else if i < 48 then Nat.xor st.b (Nat.xor st.c st.d)
    else Nat.xor st.c (Nat.lor st.b (not32 st.d))
  let g :=
    if i < 16 then i
    else if i < 32 then (5 * i + 1) % 16
    else if i < 48 then (3 * i + 5) % 16
    else (7 * i) % 16
  let fv := add32 (add32 (add32 f st.a) (K.getD i 0)) (M.getD g 0)
  ⟨st.d, add32 st.b (rotl32 fv (S.getD i 0)), st.b, st.c⟩

/-- MD5 compression function: absorb one 16-word block into the state. -/
def compress (st : State) (M : List Nat) : State :=
  let r := (List.range 64).foldl (step M) st
  ⟨add32 st.a r.a, add32 st.b r.b, add32 st.c r.c, add32 st.d r.d⟩

/-- UTF-8 encoding of a Unicode code point as a byte list. -/
def utf8EncodeChar (n : Nat) : List Nat :=
  if n < 128 then [n]
  else if n < 2048 then [192 + n / 64, 128 + n % 64]
  else if n < 65536 then [224 + n / 4096, 128 + n / 64 % 64, 128 + n % 64]
  else [240 + n / 262144, 128 + n / 4096 % 64, 128 + n / 64 % 64, 128 + n % 64]

/-- UTF-8 bytes of a string (Node's default encoding for string input to
`crypto.createHash("md5").update`). -/
def stringBytes (s : String) : List Nat :=
  s.data.foldr (fun c acc => utf8EncodeChar c.toNat ++ acc) []

/-- The 8-byte little-endian encoding of the 64-bit message bit-length. -/
def lengthBytes (n : Nat) : List Nat :=
  (List.range 8).map (fun i => n / 2 ^ (8 * i) % 256)

/-- MD5 padding: append `0x80`, zero bytes to 56 mod 64, then the bit length. -/
def padBytes (m : List Nat) : List Nat :=
  m ++ 128 :: List.replicate ((119 - m.length % 64) % 64) 0
    ++ lengthBytes (8 * m.length % 2 ^ 64)

/-- Group bytes into little-endian 32-bit words. -/
def toWords : List Nat → List Nat
  | b0 :: b1 :: b2 :: b3 :: rest =>
      (b0 + 256 * b1 + 65536 * b2 + 16777216 * b3) :: toWords rest
  | _ => []

/-- Group a word list into 16-word blocks (a padded MD5 message always has a
multiple of 16 words, so the ragged final case below is never reached). -/
def toBlocks : List Nat → List (List Nat)
  | w0 :: w1 :: w2 :: w3 :: w4 :: w5 :: w6 :: w7 ::
    w8 :: w9 :: w10 :: w11 :: w12 :: w13 :: w14 :: w15 :: rest =>
      [w0, w1, w2, w3, w4, w5, w6, w7, w8, w9, w10, w11, w12, w13, w14, w15]
        :: toBlocks rest
  | [] => []
  | ws => [ws]

/-- The final MD5 state of a string: pad, split into blocks, compress each
into the standard initial state. -/
def md5Final (s : String) : State :=
  (toBlocks (toWords (padBytes (stringBytes s)))).foldl compress
    ⟨1732584193, 4023233417, 2562383102, 271733878⟩

/-- Reverse the byte order of a 32-bit word.  The first 8 hex characters of
the MD5 hex digest are the little-endian bytes of state word `a`, so
`parseInt(digest.substring(0, 8), 16)` is the byte-swap of `a`. -/
def byteswap32 (x : Nat) : Nat :=
  x % 256 * 16777216 + x / 256 % 256 * 65536 + x / 65536 % 256 * 256
    + x / 16777216 % 256

end MD5

/-- `ConsistentHash.hash` (source lines 12–17): `parseInt` of the first 8 hex
characters of the MD5 digest of `key`, i.e. the byte-swapped first state
word. -/
def chash (key : String) : Nat := MD5.byteswap32 (MD5.md5Final key).a

/-- The ring state (source lines 3–9): `this.virtualNodes`, `this.ring`
(a `Map` from position to server, as an association list with unique keys),
`this.servers` (a `Set`, as a duplicate-free list), and
`this.sortedPositions`. -/
structure ConsistentHash where
  virtualNodes : Nat
  ring : List (Nat × String)
  servers : List String
  sortedPositions : List Nat
deriving Repr, DecidableEq

namespace ConsistentHash

/-- `new ConsistentHash(virtualNodes)` (source lines 4–9). -/
def init (virtualNodes : Nat) : ConsistentHash := ⟨virtualNodes, [], [], []⟩

/-- JavaScript `Map.set`: overwrite the value in place when the key is
present, append a fresh entry otherwise. -/
def mapSet (m : List (Nat × String)) (k : Nat) (v : String) :
    List (Nat × String) :=
  if m.any (fun e => e.1 == k) then
    m.map (fun e => if e.1 == k then (k, v) else e)
  else m ++ [(k, v)]

/-- JavaScript `Map.get`: `some` the stored value, `none` for `undefined`. -/
def mapGet (m : List (Nat × String)) (k : Nat) : Option String :=
  (m.find? (fun e => e.1 == k)).map (fun e => e.2)

/-- JavaScript `Map.delete`: drop the entry with the given key. -/
def mapDelete (m : List (Nat × String)) (k : Nat) : List (Nat × String) :=
  m.filter (fun e => e.1 != k)

/-- `updateSortedPositions` (source lines 62–64):
`Array.from(this.ring.keys()).sort((a, b) => a - b)`, the ring's keys in
ascending order. -/
def updateSortedPositions (ring : List (Nat × String)) : List Nat :=
  List.insertionSort (fun a b => a ≤ b) (ring.map Prod.fst)

/-- The virtual-node key `` `${server}:${i}` `` (source lines 30 and 52). -/
def virtualKey (server : String) (i : Nat) : String :=
  server ++ ":" ++ toString i

/-- The `virtualNodeCount` ring positions of a server (source lines 29–33
and 51–55). -/
def virtualPositions (v : Nat) (server : String) : List Nat :=
  (List.range v).map (fun i => chash (virtualKey server i))

/-- `addServer` (source lines 20–39): no-op when the server is present,
otherwise register it, claim its virtual-node positions (later writes win on
a position collision), and rebuild `sortedPositions`. -/
def addServer (ch : ConsistentHash) (server : String) : ConsistentHash :=
  if ch.servers.contains server then ch
  else
    let ring := (List.range ch.virtualNodes).foldl
      (fun r i => mapSet r (chash (virtualKey server i)) server) ch.ring
    ⟨ch.virtualNodes, ring, ch.servers ++ [server], updateSortedPositions ring⟩

/-- `removeServer` (source lines 42–59): no-op when the server is absent,
otherwise deregister it, delete its virtual-node positions, and rebuild
`sortedPositions`. -/
def removeServer (ch : ConsistentHash) (server : String) : ConsistentHash :=
  if ch.servers.contains server then
    let ring := (List.range ch.virtualNodes).foldl
      (fun r i => mapDelete r (chash (virtualKey server i))) ch.ring
    ⟨ch.virtualNodes, ring, ch.servers.filter (fun t => t != server),
      updateSortedPositions ring⟩
  else ch

/-- The `while (left < right)` binary-search loop of `getServer` (source
lines 75–85), with `mid = Math.floor((left + right) / 2)` inlined (`Nat`
division is the floor) and structural recursion on a fuel argument so that
the loop evaluates by kernel reduction; `getServer` passes fuel
`right - left`, which bounds the iteration count because every iteration
shrinks `right - left` by at least one, so the fuel case `0` is only
reached when `left ≥ right` and the loop condition already fails. -/
def bsearchLoop (sp : List Nat) (position : Nat) : Nat → Nat → Nat → Nat
  | 0, left, _ => left
  | fuel + 1, left, right =>
    if left < right then
      if sp.getD ((left + right) / 2) 0 < position then
        bsearchLoop sp position fuel ((left + right) / 2 + 1) right
      else bsearchLoop sp position fuel left ((left + right) / 2)
    else left

/-- The `serverPosition` picked by `getServer` (source lines 72–91):
`sortedPositions[left]` when it is `≥ hash(key)`, else wrap around to
`sortedPositions[0]`, where `left` is the binary-search result starting
from `left = 0`, `right = sortedPositions.length - 1`. -/
def chosenPosition (sp : List Nat) (position : Nat) : Nat :=
  if position ≤ sp.getD (bsearchLoop sp position (sp.length - 1) 0 (sp.length - 1)) 0 then
    sp.getD (bsearchLoop sp position (sp.length - 1) 0 (sp.length - 1)) 0
  else sp.getD 0 0

/-- `getServer` (source lines 67–94): throw when the ring is empty, else
binary-search `sortedPositions` for the first position `≥ hash(key)`,
wrapping to `sortedPositions[0]` when the hash is past the last position,
and return `ring.get` of the chosen position. -/
def getServer (ch : ConsistentHash) (key : String) :
    Except String (Option String) :=
  if ch.sortedPositions.length = 0 then
    Except.error "No servers available"
  else
    Except.ok (mapGet ch.ring (chosenPosition ch.sortedPositions (chash key)))

/-- One `distribution[server]++` step (source line 107).  When `server` is
a key of `distribution` the count is incremented.  A `server` that is not a
key (including JavaScript `undefined`, modelled by `none`) would store
`NaN` in JavaScript; that situation is unreachable because every ring value
is a registered server, and the model leaves the counts unchanged there. -/
def bump (d : List (String × Nat)) : Option String → List (String × Nat)
  | some t => d.map (fun e => if e.1 == t then (e.1, e.2 + 1) else e)
  | none => d

/-- `getDistribution` (source lines 97–111): a zero count per registered
server, then one `getServer` call per sample key `key_0 … key_9999`,
incrementing that server's count; a `getServer` throw propagates. -/
def getDistribution (ch : ConsistentHash) :
    Except String (List (String × Nat)) :=
  (List.range 10000).foldlM
    (fun d i =>
      match getServer ch ("key_" ++ toString i) with
      | Except.error e => Except.error e
      | Except.ok s => Except.ok (bump d s))
    (ch.servers.map (fun s => (s, 0)))

/-- The ring states reachable through the public API from a fresh ring. -/
inductive Reachable : ConsistentHash → Prop
  | init (v : Nat) : Reachable (init v)
  | add {ch : ConsistentHash} (s : String) :
      Reachable ch → Reachable (addServer ch s)
  | remove {ch : ConsistentHash} (s : String) :
      Reachable ch → Reachable (removeServer ch s)

/-- The minimum of a list of naturals, `none` for the empty list. -/
def minOfList : List Nat → Option Nat
  | [] => none
  | x :: xs =>
    match minOfList xs with
    | none => some x
    | some m => some (min x m)

/-- Modelled from the spec's words for comparison with `getServer` (the
lookup algorithm of spec §4.1): the smallest element of `sp` that is
`≥ pos`; if none exists, the first (smallest) element of `sp`. -/
def clockwiseSuccessor (sp : List Nat) (pos : Nat) : Nat :=
  match minOfList (sp.filter (fun p => decide (pos ≤ p))) with
  | some p => p
  | none => (minOfList sp).getD 0

/-- `addServer`'s ring-update loop, folded over an explicit position list:
set every position of `ps` to `server`. -/
def setAll (m : List (Nat × String)) (ps : List Nat) (server : String) :
    List (Nat × String) :=
  ps.foldl (fun r p => mapSet r p server) m

/-- `removeServer`'s ring-update loop, folded over an explicit position
list: delete every position of `ps`. -/
def delAll (m : List (Nat × String)) (ps : List Nat) : List (Nat × String) :=
  ps.foldl (fun r p => mapDelete r p) m

/-- The state invariant maintained by the public operations:
`sortedPositions` is the rebuilt sorted key list, ring keys and the server
set are duplicate-free, every ring value is a registered server, and every
ring entry sits at one of its own server's virtual-node positions. -/
structure WF (ch : ConsistentHash) : Prop where
  sorted_sync : ch.sortedPositions = updateSortedPositions ch.ring
  keys_nodup : (ch.ring.map Prod.fst).Nodup
  servers_nodup : ch.servers.Nodup
  values_mem : ∀ e ∈ ch.ring, e.2 ∈ ch.servers
  pos_prov : ∀ e ∈ ch.ring, ∃ i, i < ch.virtualNodes ∧
    e.1 = chash (virtualKey e.2 i)

/-- The payload of a non-throwing `getServer` call (`none` when the call
threw, which `getDistribution`'s accounting never reaches). -/
def exceptValD : Except String (Option String) → Option String
  | Except.ok v => v
  | Except.error _ => none

/-- The sample keys `key_0 … key_9999` hard-coded in `getDistribution`
(source lines 104–105). -/
def sampleKeys : List String :=
  (List.range 10000).map (fun i => "key_" ++ toString i)

/-- Whether `getServer` assigns `key` to server `s`. -/
def assignedTo (ch : ConsistentHash) (s : String) (key : String) : Bool :=
  exceptValD (getServer ch key) == some s

/-- A one-server ring used to instantiate the verified theorems. -/
def chA : ConsistentHash := addServer (init 1) "a"

/-- A two-server ring used to instantiate the verified theorems. -/
def chAB : ConsistentHash := addServer chA "b"

/-- A reachable ring exhibiting a 32-bit truncated-MD5 collision:
`hash("m0b:0") = hash("srh:0") = 3637123777`, so adding `"srh"` overwrites
`"m0b"`'s only virtual node and removing `"srh"` afterwards leaves a
registered server with an empty ring. -/
def chCollide : ConsistentHash :=
  removeServer (addServer (addServer (init 1) "m0b") "srh") "srh"

end ConsistentHash

namespace ConsistentHash

theorem mapGet_cons (e : Nat × String) (m : List (Nat × String)) (q : Nat) :
    mapGet (e :: m) q = if e.1 = q then some e.2 else mapGet m q := by
  by_cases h : e.1 = q
  · simp [mapGet, List.find?_cons_of_pos, h]
  · rw [mapGet, List.find?_cons_of_neg _ (by simpa using h), if_neg h, mapGet]

theorem mapGet_append_single (m : List (Nat × String)) (k q : Nat) (v : String) :
    mapGet (m ++ [(k, v)]) q =
      if mapGet m q = none then (if k = q then some v else none)
      else mapGet m q := by
  induction m with
  | nil => by_cases h : k = q <;> simp [mapGet_cons, mapGet, h]
  | cons e m ih =>
    by_cases h : e.1 = q
    · simp [List.cons_append, mapGet_cons, h]
    · simpa [List.cons_append, mapGet_cons, h] using ih

theorem any_key_iff (m : List (Nat × String)) (k : Nat) :
    m.any (fun e => e.1 == k) = true ↔ k ∈ m.map Prod.fst := by
  rw [List.any_eq_true, List.mem_map]
  constructor
  · rintro ⟨e, he, hek⟩
    exact ⟨e, he, by simpa using hek⟩
  · rintro ⟨e, he, hek⟩
    exact ⟨e, he, by simpa using hek⟩

theorem mapGet_eq_none_iff (m : List (Nat × String)) (q : Nat) :
    mapGet m q = none ↔ q ∉ m.map Prod.fst := by
  induction m with
  | nil => simp [mapGet]
  | cons e m ih =>
    rw [mapGet_cons]
    by_cases h : e.1 = q
    · simp [h]
    · simp only [if_neg h, ih, List.map_cons, List.mem_cons]
      constructor
      · intro hq hor
        rcases hor with hor | hor
        · exact h hor.symm
        · exact hq hor
      · intro hq hm
        exact hq (Or.inr hm)

theorem mapGet_mem (m : List (Nat × String)) (q : Nat) (v : String)
    (h : mapGet m q = some v) : (q, v) ∈ m := by
  induction m with
  | nil => simp [mapGet] at h
  | cons e m ih =>
    by_cases he : e.1 = q
    · rw [mapGet_cons, if_pos he] at h
      refine List.mem_cons.mpr (Or.inl ?_)
      cases e
      simp at he h
      simp [he, h]
    · rw [mapGet_cons, if_neg he] at h
      exact List.mem_cons_of_mem _ (ih h)

theorem keys_overwrite (m : List (Nat × String)) (k : Nat) (v : String) :
    (m.map (fun e => if e.1 == k then (k, v) else e)).map Prod.fst =
      m.map Prod.fst := by
  rw [List.map_map]
  refine List.map_congr_left (fun e _ => ?_)
  by_cases h : e.1 = k <;> simp [h]

theorem mapGet_overwrite (m : List (Nat × String)) (k q : Nat) (v : String) :
    mapGet (m.map (fun e => if e.1 == k then (k, v) else e)) q =
      if q = k then (if k ∈ m.map Prod.fst then some v else none)
      else mapGet m q := by
  induction m with
  | nil => by_cases h : q = k <;> simp [mapGet, h]
  | cons e m ih =>
    rw [List.map_cons]
    by_cases hek : e.1 = k
    · rw [if_pos (by simpa using hek), mapGet_cons, mapGet_cons]
      by_cases hqk : q = k
      · rw [if_pos hqk.symm, if_pos hqk,
          if_pos (List.mem_map.mpr ⟨e, List.mem_cons_self e m, hek⟩)]
      · rw [if_neg (fun h => hqk h.symm), if_neg hqk, ih, if_neg hqk,
          if_neg (fun h => hqk (hek.symm.trans h).symm)]
    · rw [if_neg (by simpa using hek), mapGet_cons, mapGet_cons]
      by_cases heq : e.1 = q
      · rw [if_pos heq, if_neg (fun hqk : q = k => hek (heq.trans hqk)), if_pos heq]
      · rw [if_neg heq, if_neg heq, ih]
        by_cases hqk : q = k
        · rw [if_pos hqk, if_pos hqk]
          by_cases hm : k ∈ m.map Prod.fst
          · rw [if_pos hm, if_pos (by rw [List.map_cons]; exact List.mem_cons_of_mem _ hm)]
          · rw [if_neg hm, if_neg (by
              rw [List.map_cons, List.mem_cons]
              rintro (h | h)
              · exact hek h.symm
              · exact hm h)]
        · rw [if_neg hqk, if_neg hqk]

theorem mapGet_mapSet (m : List (Nat × String)) (k q : Nat) (v : String) :
    mapGet (mapSet m k v) q = if q = k then some v else mapGet m q := by
  unfold mapSet
  by_cases hin : m.any (fun e => e.1 == k) = true
  · rw [if_pos hin, mapGet_overwrite]
    rw [any_key_iff] at hin
    by_cases hqk : q = k <;> simp [hqk, hin]
  · rw [if_neg hin, mapGet_append_single]
    have hk : k ∉ m.map Prod.fst := by
      rw [← any_key_iff]; exact fun h => hin h
    by_cases hqk : q = k
    · subst hqk
      rw [if_pos ((mapGet_eq_none_iff m q).mpr hk), if_pos rfl, if_pos rfl]
    · rw [if_neg hqk]
      by_cases hnone : mapGet m q = none
      · rw [if_pos hnone, hnone, if_neg (fun h => hqk h.symm)]
      · rw [if_neg hnone]

theorem keys_mapSet (m : List (Nat × String)) (k : Nat) (v : String) :
    (mapSet m k v).map Prod.fst =
      if k ∈ m.map Prod.fst then m.map Prod.fst else m.map Prod.fst ++ [k] := by
  unfold mapSet
  by_cases hin : m.any (fun e => e.1 == k) = true
  · rw [if_pos hin, keys_overwrite, if_pos ((any_key_iff m k).mp hin)]
  · rw [if_neg hin, if_neg (fun h => hin ((any_key_iff m k).mpr h))]
    simp

theorem keys_mapSet_nodup (m : List (Nat × String)) (k : Nat) (v : String)
    (h : (m.map Prod.fst).Nodup) : ((mapSet m k v).map Prod.fst).Nodup := by
  rw [keys_mapSet]
  by_cases hin : k ∈ m.map Prod.fst
  · rwa [if_pos hin]
  · rw [if_neg hin]
    simp [List.nodup_append, h, hin]

theorem mem_mapSet (m : List (Nat × String)) (k : Nat) (v : String)
    (e : Nat × String) (h : e ∈ mapSet m k v) : e ∈ m ∨ e = (k, v) := by
  unfold mapSet at h
  by_cases hin : m.any (fun e => e.1 == k) = true
  · rw [if_pos hin] at h
    obtain ⟨x, hx, hfx⟩ := List.mem_map.mp h
    by_cases hxk : x.1 = k
    · right; rw [← hfx]; simp [hxk]
    · left; rw [← hfx]; simpa [hxk] using hx
  · rw [if_neg hin] at h
    rcases List.mem_append.mp h with h | h
    · exact Or.inl h
    · right; simpa using h

theorem length_mapSet (m : List (Nat × String)) (k : Nat) (v : String) :
    (mapSet m k v).length =
      if k ∈ m.map Prod.fst then m.length else m.length + 1 := by
  unfold mapSet
  by_cases hin : m.any (fun e => e.1 == k) = true
  · rw [if_pos hin, List.length_map, if_pos ((any_key_iff m k).mp hin)]
  · rw [if_neg hin, if_neg (fun h => hin ((any_key_iff m k).mpr h))]
    simp

theorem mem_mapDelete (m : List (Nat × String)) (k : Nat) (e : Nat × String) :
    e ∈ mapDelete m k ↔ e ∈ m ∧ e.1 ≠ k := by
  unfold mapDelete
  rw [List.mem_filter]
  constructor
  · rintro ⟨he, hk⟩
    exact ⟨he, by simpa using hk⟩
  · rintro ⟨he, hk⟩
    exact ⟨he, by simpa using hk⟩

theorem keys_mapDelete_mem (m : List (Nat × String)) (k q : Nat) :
    q ∈ (mapDelete m k).map Prod.fst ↔ q ∈ m.map Prod.fst ∧ q ≠ k := by
  rw [List.mem_map]
  constructor
  · rintro ⟨e, he, hq⟩
    rw [mem_mapDelete] at he
    exact ⟨List.mem_map.mpr ⟨e, he.1, hq⟩, hq ▸ he.2⟩
  · rintro ⟨hq, hk⟩
    obtain ⟨e, he, hq⟩ := List.mem_map.mp hq
    exact ⟨e, (mem_mapDelete m k e).mpr ⟨he, hq ▸ hk⟩, hq⟩

theorem keys_mapDelete_nodup (m : List (Nat × String)) (k : Nat)
    (h : (m.map Prod.fst).Nodup) : ((mapDelete m k).map Prod.fst).Nodup :=
  (List.Sublist.map Prod.fst (List.filter_sublist m)).nodup h

theorem mapGet_mapDelete (m : List (Nat × String)) (k q : Nat) :
    mapGet (mapDelete m k) q = if q = k then none else mapGet m q := by
  by_cases hqk : q = k
  · rw [if_pos hqk, mapGet_eq_none_iff, keys_mapDelete_mem]
    rintro ⟨_, hne⟩
    exact hne hqk
  · rw [if_neg hqk]
    induction m with
    | nil => rfl
    | cons e m ih =>
      by_cases hek : e.1 = k
      · have : mapDelete (e :: m) k = mapDelete m k := by
          unfold mapDelete
          rw [List.filter_cons_of_neg (by simpa using hek)]
        rw [this, ih, mapGet_cons, if_neg (fun h => hqk (hek.symm.trans h).symm)]
      · have : mapDelete (e :: m) k = e :: mapDelete m k := by
          unfold mapDelete
          rw [List.filter_cons_of_pos (by simpa using hek)]
        rw [this, mapGet_cons, mapGet_cons, ih]

theorem mapGet_setAll (m : List (Nat × String)) (ps : List Nat) (s : String)
    (q : Nat) :
    mapGet (setAll m ps s) q = if q ∈ ps then some s else mapGet m q := by
  induction ps generalizing m with
  | nil => simp [setAll]
  | cons p ps ih =>
    have hstep : setAll m (p :: ps) s = setAll (mapSet m p s) ps s := rfl
    rw [hstep, ih, mapGet_mapSet]
    by_cases hps : q ∈ ps
    · rw [if_pos hps, if_pos (List.mem_cons_of_mem _ hps)]
    · rw [if_neg hps]
      by_cases hp : q = p
      · rw [if_pos hp, if_pos (hp ▸ List.mem_cons_self p ps)]
      · rw [if_neg hp, if_neg (by
          rw [List.mem_cons]
          rintro (h | h)
          · exact hp h
          · exact hps h)]

theorem keys_setAll_mem (m : List (Nat × String)) (ps : List Nat) (s : String)
    (q : Nat) :
    q ∈ (setAll m ps s).map Prod.fst ↔ q ∈ m.map Prod.fst ∨ q ∈ ps := by
  induction ps generalizing m with
  | nil => simp [setAll]
  | cons p ps ih =>
    have hstep : setAll m (p :: ps) s = setAll (mapSet m p s) ps s := rfl
    rw [hstep, ih, keys_mapSet]
    by_cases hp : p ∈ m.map Prod.fst
    · rw [if_pos hp]
      constructor
      · rintro (h | h)
        · exact Or.inl h
        · exact Or.inr (List.mem_cons_of_mem _ h)
      · rintro (h | h)
        · exact Or.inl h
        · rcases List.mem_cons.mp h with h | h
          · exact Or.inl (h ▸ hp)
          · exact Or.inr h
    · rw [if_neg hp]
      constructor
      · rintro (h | h)
        · rcases List.mem_append.mp h with h | h
          · exact Or.inl h
          · simp at h
            exact Or.inr (h ▸ List.mem_cons_self p ps)
        · exact Or.inr (List.mem_cons_of_mem _ h)
      · rintro (h | h)
        · exact Or.inl (List.mem_append_left _ h)
        · rcases List.mem_cons.mp h with h | h
          · exact Or.inl (List.mem_append_right _ (by simp [h]))
          · exact Or.inr h

theorem keys_setAll_nodup (m : List (Nat × String)) (ps : List Nat)
    (s : String) (h : (m.map Prod.fst).Nodup) :
    ((setAll m ps s).map Prod.fst).Nodup := by
  induction ps generalizing m with
  | nil => exact h
  | cons p ps ih => exact ih _ (keys_mapSet_nodup m p s h)

theorem mem_setAll (m : List (Nat × String)) (ps : List Nat) (s : String)
    (e : Nat × String) (h : e ∈ setAll m ps s) :
    e ∈ m ∨ (e.2 = s ∧ e.1 ∈ ps) := by
  induction ps generalizing m with
  | nil => exact Or.inl h
  | cons p ps ih =>
    rcases ih (mapSet m p s) h with h | h
    · rcases mem_mapSet m p s e h with h | h
      · exact Or.inl h
      · exact Or.inr ⟨by rw [h], by rw [h]; exact List.mem_cons_self p ps⟩
    · exact Or.inr ⟨h.1, List.mem_cons_of_mem _ h.2⟩

theorem length_setAll_le (m : List (Nat × String)) (ps : List Nat)
    (s : String) : (setAll m ps s).length ≤ m.length + ps.length := by
  induction ps generalizing m with
  | nil => simp [setAll]
  | cons p ps ih =>
    have hstep : setAll m (p :: ps) s = setAll (mapSet m p s) ps s := rfl
    rw [hstep]
    refine le_trans (ih (mapSet m p s)) ?_
    rw [length_mapSet]
    have hc : (p :: ps).length = ps.length + 1 := rfl
    by_cases hp : p ∈ m.map Prod.fst
    · rw [if_pos hp]
      omega
    · rw [if_neg hp]
      omega

theorem length_setAll_fresh (m : List (Nat × String)) (ps : List Nat)
    (s : String) (hnd : ps.Nodup) (hfresh : ∀ p ∈ ps, p ∉ m.map Prod.fst) :
    (setAll m ps s).length = m.length + ps.length := by
  induction ps generalizing m with
  | nil => simp [setAll]
  | cons p ps ih =>
    have hstep : setAll m (p :: ps) s = setAll (mapSet m p s) ps s := rfl
    have hp : p ∉ m.map Prod.fst := hfresh p (List.mem_cons_self p ps)
    have hlen : (mapSet m p s).length = m.length + 1 := by
      rw [length_mapSet, if_neg hp]
    have hfresh2 : ∀ q ∈ ps, q ∉ (mapSet m p s).map Prod.fst := by
      intro q hq
      rw [keys_mapSet, if_neg hp, List.mem_append]
      rintro (h | h)
      · exact hfresh q (List.mem_cons_of_mem _ hq) h
      · simp at h
        exact (List.nodup_cons.mp hnd).1 (h ▸ hq)
    rw [hstep, ih (mapSet m p s) (List.nodup_cons.mp hnd).2 hfresh2, hlen]
    have hc : (p :: ps).length = ps.length + 1 := rfl
    omega

theorem mem_delAll (m : List (Nat × String)) (ps : List Nat)
    (e : Nat × String) : e ∈ delAll m ps ↔ e ∈ m ∧ e.1 ∉ ps := by
  induction ps generalizing m with
  | nil => simp [delAll]
  | cons p ps ih =>
    have hstep : delAll m (p :: ps) = delAll (mapDelete m p) ps := rfl
    rw [hstep, ih, mem_mapDelete]
    constructor
    · rintro ⟨⟨he, hp⟩, hps⟩
      refine ⟨he, ?_⟩
      rw [List.mem_cons]
      rintro (h | h)
      · exact hp h
      · exact hps h
    · rintro ⟨he, hps⟩
      exact ⟨⟨he, fun h => hps (h ▸ List.mem_cons_self p ps)⟩,
        fun h => hps (List.mem_cons_of_mem _ h)⟩

theorem mapGet_delAll (m : List (Nat × String)) (ps : List Nat) (q : Nat) :
    mapGet (delAll m ps) q = if q ∈ ps then none else mapGet m q := by
  induction ps generalizing m with
  | nil => simp [delAll]
  | cons p ps ih =>
    have hstep : delAll m (p :: ps) = delAll (mapDelete m p) ps := rfl
    rw [hstep, ih, mapGet_mapDelete]
    by_cases hps : q ∈ ps
    · rw [if_pos hps, if_pos (List.mem_cons_of_mem _ hps)]
    · rw [if_neg hps]
      by_cases hp : q = p
      · rw [if_pos hp, if_pos (hp ▸ List.mem_cons_self p ps)]
      · rw [if_neg hp, if_neg (by
          rw [List.mem_cons]
          rintro (h | h)
          · exact hp h
          · exact hps h)]

theorem keys_delAll_mem (m : List (Nat × String)) (ps : List Nat) (q : Nat) :
    q ∈ (delAll m ps).map Prod.fst ↔ q ∈ m.map Prod.fst ∧ q ∉ ps := by
  rw [List.mem_map]
  constructor
  · rintro ⟨e, he, hq⟩
    rw [mem_delAll] at he
    exact ⟨List.mem_map.mpr ⟨e, he.1, hq⟩, hq ▸ he.2⟩
  · rintro ⟨hq, hps⟩
    obtain ⟨e, he, hq⟩ := List.mem_map.mp hq
    exact ⟨e, (mem_delAll m ps e).mpr ⟨he, hq ▸ hps⟩, hq⟩

theorem keys_delAll_nodup (m : List (Nat × String)) (ps : List Nat)
    (h : (m.map Prod.fst).Nodup) : ((delAll m ps).map Prod.fst).Nodup := by
  induction ps generalizing m with
  | nil => exact h
  | cons p ps ih => exact ih _ (keys_mapDelete_nodup m p h)

theorem minOfList_eq_none_iff (l : List Nat) : minOfList l = none ↔ l = [] := by
  cases l with
  | nil => simp [minOfList]
  | cons x xs =>
    simp only [minOfList]
    cases minOfList xs <;> simp

theorem minOfList_spec (l : List Nat) (h : l ≠ []) :
    ∃ m, minOfList l = some m ∧ m ∈ l ∧ ∀ x ∈ l, m ≤ x := by
  induction l with
  | nil => exact absurd rfl h
  | cons x xs ih =>
    cases hmin : minOfList xs with
    | none =>
      refine ⟨x, by simp [minOfList, hmin], List.mem_cons_self x xs, ?_⟩
      intro y hy
      rcases List.mem_cons.mp hy with hyx | hyx
      · exact hyx ▸ le_refl x
      · rw [(minOfList_eq_none_iff xs).mp hmin] at hyx
        simp at hyx
    | some m =>
      have hxs : xs ≠ [] := by
        intro hn
        rw [hn] at hmin
        simp [minOfList] at hmin
      obtain ⟨m2, hm2, hmem, hlb⟩ := ih hxs
      have hm2m : m2 = m := by
        rw [hmin] at hm2
        exact (Option.some_inj.mp hm2).symm
      subst hm2m
      refine ⟨min x m2, by simp [minOfList, hmin], ?_, ?_⟩
      · rcases le_total x m2 with hxm | hxm
        · rw [min_eq_left hxm]
          exact List.mem_cons_self x xs
        · rw [min_eq_right hxm]
          exact List.mem_cons_of_mem _ hmem
      · intro y hy
        rcases List.mem_cons.mp hy with hyx | hyx
        · exact hyx ▸ min_le_left x m2
        · exact le_trans (min_le_right x m2) (hlb y hyx)

theorem minOfList_unique (l : List Nat) (m : Nat) (hmem : m ∈ l)
    (hlb : ∀ x ∈ l, m ≤ x) : minOfList l = some m := by
  have hne : l ≠ [] := by
    intro h
    rw [h] at hmem
    simp at hmem
  obtain ⟨m2, hm2, hmem2, hlb2⟩ := minOfList_spec l hne
  rw [hm2]
  exact congrArg some (le_antisymm (hlb2 m hmem) (hlb m2 hmem2))

theorem clockwiseSuccessor_spec (sp : List Nat) (pos : Nat) (h : sp ≠ []) :
    (clockwiseSuccessor sp pos ∈ sp ∧ pos ≤ clockwiseSuccessor sp pos ∧
      ∀ x ∈ sp, pos ≤ x → clockwiseSuccessor sp pos ≤ x) ∨
    ((∀ x ∈ sp, x < pos) ∧ clockwiseSuccessor sp pos ∈ sp ∧
      ∀ x ∈ sp, clockwiseSuccessor sp pos ≤ x) := by
  unfold clockwiseSuccessor
  cases hmin : minOfList (sp.filter (fun p => decide (pos ≤ p))) with
  | none =>
    right
    have hfil : sp.filter (fun p => decide (pos ≤ p)) = [] :=
      (minOfList_eq_none_iff _).mp hmin
    have hall : ∀ x ∈ sp, x < pos := by
      intro x hx
      by_contra hlt
      have hxf : x ∈ sp.filter (fun p => decide (pos ≤ p)) :=
        List.mem_filter.mpr ⟨hx, by simpa using not_lt.mp hlt⟩
      rw [hfil] at hxf
      simp at hxf
    obtain ⟨m, hm, hmem, hlb⟩ := minOfList_spec sp h
    rw [hm]
    exact ⟨hall, hmem, hlb⟩
  | some p =>
    left
    have hne2 : sp.filter (fun p => decide (pos ≤ p)) ≠ [] := by
      intro hnil
      rw [hnil] at hmin
      simp [minOfList] at hmin
    obtain ⟨m, hm, hmem, hlb⟩ := minOfList_spec _ hne2
    have hmp : m = p := by
      rw [hm] at hmin
      exact Option.some_inj.mp hmin
    subst hmp
    have hmem2 := List.mem_filter.mp hmem
    refine ⟨hmem2.1, by simpa using hmem2.2, ?_⟩
    intro x hx hpx
    exact hlb x (List.mem_filter.mpr ⟨hx, by simpa using hpx⟩)

theorem clockwiseSuccessor_unique (sp : List Nat) (pos c : Nat) (h : sp ≠ [])
    (hc : (c ∈ sp ∧ pos ≤ c ∧ ∀ x ∈ sp, pos ≤ x → c ≤ x) ∨
      ((∀ x ∈ sp, x < pos) ∧ c ∈ sp ∧ ∀ x ∈ sp, c ≤ x)) :
    clockwiseSuccessor sp pos = c := by
  rcases clockwiseSuccessor_spec sp pos h with hs | hs <;> rcases hc with hc | hc
  · exact le_antisymm (hs.2.2 c hc.1 hc.2.1) (hc.2.2 _ hs.1 hs.2.1)
  · exact absurd hs.2.1 (not_le.mpr (hc.1 _ hs.1))
  · exact absurd hc.2.1 (not_le.mpr (hs.1 c hc.1))
  · exact le_antisymm (hs.2.2 c hc.2.1) (hc.2.2 _ hs.2.1)

theorem clockwiseSuccessor_mem (sp : List Nat) (pos : Nat) (h : sp ≠ []) :
    clockwiseSuccessor sp pos ∈ sp := by
  rcases clockwiseSuccessor_spec sp pos h with hs | hs
  · exact hs.1
  · exact hs.2.1

theorem getD_eq_get (sp : List Nat) (i : Nat) (h : i < sp.length) :
    sp.getD i 0 = sp.get ⟨i, h⟩ := by
  rw [List.getD_eq_getElem?_getD, List.getElem?_eq_getElem h]
  simp [List.get_eq_getElem]

theorem sorted_getD_mono (sp : List Nat) (hs : sp.Sorted (fun a b => a ≤ b))
    (i j : Nat) (hij : i ≤ j) (hj : j < sp.length) :
    sp.getD i 0 ≤ sp.getD j 0 := by
  have hi : i < sp.length := lt_of_le_of_lt hij hj
  rw [getD_eq_get sp i hi, getD_eq_get sp j hj]
  exact hs.rel_get_of_le hij

theorem getD_mem (sp : List Nat) (i : Nat) (h : i < sp.length) :
    sp.getD i 0 ∈ sp := by
  rw [getD_eq_get sp i h]
  exact List.get_mem sp i h

theorem bsearchLoop_spec (sp : List Nat) (pos : Nat)
    (hs : sp.Sorted (fun a b => a ≤ b)) :
    ∀ (fuel left right : Nat), right < sp.length → left ≤ right →
      right - left ≤ fuel →
      (∀ j, j < left → sp.getD j 0 < pos) →
      (pos ≤ sp.getD right 0 ∨ right = sp.length - 1) →
      left ≤ bsearchLoop sp pos fuel left right ∧
      bsearchLoop sp pos fuel left right ≤ right ∧
      (∀ j, j < bsearchLoop sp pos fuel left right → sp.getD j 0 < pos) ∧
      (pos ≤ sp.getD (bsearchLoop sp pos fuel left right) 0 ∨
        bsearchLoop sp pos fuel left right = sp.length - 1) := by
  intro fuel
  induction fuel with
  | zero =>
    intro left right _ hlr hfuel hlow hhigh
    have hl : left = right := by omega
    subst hl
    exact ⟨le_refl _, le_refl _, hlow, hhigh⟩
  | succ fuel ih =>
    intro left right hr hlr hfuel hlow hhigh
    rw [bsearchLoop]
    by_cases hlt : left < right
    · rw [if_pos hlt]
      have hmid1 : left ≤ (left + right) / 2 := by omega
      have hmid2 : (left + right) / 2 < right := by omega
      by_cases hcmp : sp.getD ((left + right) / 2) 0 < pos
      · rw [if_pos hcmp]
        have hres := ih ((left + right) / 2 + 1) right hr (by omega) (by omega)
          (fun j hj => lt_of_le_of_lt
            (sorted_getD_mono sp hs j ((left + right) / 2) (by omega)
              (lt_trans hmid2 hr)) hcmp)
          hhigh
        exact ⟨le_trans (by omega) hres.1, hres.2.1, hres.2.2⟩
      · rw [if_neg hcmp]
        have hres := ih left ((left + right) / 2) (lt_trans hmid2 hr) hmid1
          (by omega) hlow (Or.inl (not_lt.mp hcmp))
        exact ⟨hres.1, le_trans hres.2.1 (le_of_lt hmid2), hres.2.2⟩
    · rw [if_neg hlt]
      have hl : left = right := by omega
      subst hl
      exact ⟨le_refl _, le_refl _, hlow, hhigh⟩

theorem chosenPosition_eq (sp : List Nat) (pos : Nat)
    (hs : sp.Sorted (fun a b => a ≤ b)) (hne : sp ≠ []) :
    chosenPosition sp pos = clockwiseSuccessor sp pos := by
  have hlen : 0 < sp.length := List.length_pos.mpr hne
  obtain ⟨hl1, hl2, hlow, hhigh⟩ := bsearchLoop_spec sp pos hs
    (sp.length - 1) 0 (sp.length - 1) (by omega) (by omega) (by omega)
    (fun j hj => absurd hj (Nat.not_lt_zero j)) (Or.inr rfl)
  unfold chosenPosition
  by_cases hge : pos ≤ sp.getD (bsearchLoop sp pos (sp.length - 1) 0 (sp.length - 1)) 0
  · rw [if_pos hge]
    refine (clockwiseSuccessor_unique sp pos _ hne (Or.inl ⟨?_, hge, ?_⟩)).symm
    · exact getD_mem sp _ (by omega)
    · intro x hx hpx
      obtain ⟨⟨j, hj⟩, hget⟩ := List.mem_iff_get.mp hx
      rw [← hget, ← getD_eq_get sp j hj]
      by_cases hjl : j < bsearchLoop sp pos (sp.length - 1) 0 (sp.length - 1)
      · exact absurd (hlow j hjl) (not_lt.mpr (by rw [getD_eq_get sp j hj, hget]; exact hpx))
      · exact sorted_getD_mono sp hs _ j (not_lt.mp hjl) hj
  · rw [if_neg hge]
    have hlast : bsearchLoop sp pos (sp.length - 1) 0 (sp.length - 1) = sp.length - 1 := by
      rcases hhigh with hhigh | hhigh
      · exact absurd hhigh hge
      · exact hhigh
    have hall : ∀ x ∈ sp, x < pos := by
      intro x hx
      obtain ⟨⟨j, hj⟩, hget⟩ := List.mem_iff_get.mp hx
      rw [← hget, ← getD_eq_get sp j hj]
      calc sp.getD j 0 ≤ sp.getD (sp.length - 1) 0 :=
            sorted_getD_mono sp hs j (sp.length - 1) (by omega) (by omega)
        _ < pos := by
            rw [← hlast]
            exact not_le.mp hge
    refine (clockwiseSuccessor_unique sp pos _ hne (Or.inr ⟨hall, ?_, ?_⟩)).symm
    · exact getD_mem sp 0 hlen
    · intro x hx
      obtain ⟨⟨j, hj⟩, hget⟩ := List.mem_iff_get.mp hx
      rw [← hget, ← getD_eq_get sp j hj]
      exact sorted_getD_mono sp hs 0 j (Nat.zero_le j) hj

theorem sorted_updateSortedPositions (ring : List (Nat × String)) :
    (updateSortedPositions ring).Sorted (fun a b => a ≤ b) :=
  List.sorted_insertionSort _ _

theorem perm_updateSortedPositions (ring : List (Nat × String)) :
    (updateSortedPositions ring).Perm (ring.map Prod.fst) :=
  List.perm_insertionSort _ _

theorem mem_updateSortedPositions (ring : List (Nat × String)) (q : Nat) :
    q ∈ updateSortedPositions ring ↔ q ∈ ring.map Prod.fst :=
  (perm_updateSortedPositions ring).mem_iff

theorem updateSortedPositions_eq_nil_iff (ring : List (Nat × String)) :
    updateSortedPositions ring = [] ↔ ring = [] := by
  constructor
  · intro h
    have hlen := (perm_updateSortedPositions ring).length_eq
    rw [h] at hlen
    have : ring.length = 0 := by simpa using hlen.symm
    exact List.length_eq_zero.mp this
  · intro h
    rw [h]
    rfl

theorem contains_iff (l : List String) (s : String) :
    l.contains s = true ↔ s ∈ l := by
  simp

theorem addServer_of_mem (ch : ConsistentHash) (s : String)
    (h : s ∈ ch.servers) : addServer ch s = ch := by
  unfold addServer
  rw [if_pos ((contains_iff ch.servers s).mpr h)]

theorem addServer_of_not_mem (ch : ConsistentHash) (s : String)
    (h : s ∉ ch.servers) :
    addServer ch s =
      ⟨ch.virtualNodes,
        setAll ch.ring (virtualPositions ch.virtualNodes s) s,
        ch.servers ++ [s],
        updateSortedPositions
          (setAll ch.ring (virtualPositions ch.virtualNodes s) s)⟩ := by
  unfold addServer
  rw [if_neg (fun hc => h ((contains_iff ch.servers s).mp hc))]
  unfold setAll virtualPositions
  rw [List.foldl_map]

theorem removeServer_of_not_mem (ch : ConsistentHash) (s : String)
    (h : s ∉ ch.servers) : removeServer ch s = ch := by
  unfold removeServer
  rw [if_neg (fun hc => h ((contains_iff ch.servers s).mp hc))]

theorem removeServer_of_mem (ch : ConsistentHash) (s : String)
    (h : s ∈ ch.servers) :
    removeServer ch s =
      ⟨ch.virtualNodes,
        delAll ch.ring (virtualPositions ch.virtualNodes s),
        ch.servers.filter (fun t => t != s),
        updateSortedPositions
          (delAll ch.ring (virtualPositions ch.virtualNodes s))⟩ := by
  unfold removeServer
  rw [if_pos ((contains_iff ch.servers s).mpr h)]
  unfold delAll virtualPositions
  rw [List.foldl_map]

theorem virtualNodes_addServer (ch : ConsistentHash) (s : String) :
    (addServer ch s).virtualNodes = ch.virtualNodes := by
  by_cases h : s ∈ ch.servers
  · rw [addServer_of_mem ch s h]
  · rw [addServer_of_not_mem ch s h]

theorem virtualNodes_removeServer (ch : ConsistentHash) (s : String) :
    (removeServer ch s).virtualNodes = ch.virtualNodes := by
  by_cases h : s ∈ ch.servers
  · rw [removeServer_of_mem ch s h]
  · rw [removeServer_of_not_mem ch s h]

theorem mem_virtualPositions (v : Nat) (s : String) (q : Nat) :
    q ∈ virtualPositions v s ↔ ∃ i, i < v ∧ q = chash (virtualKey s i) := by
  unfold virtualPositions
  rw [List.mem_map]
  constructor
  · rintro ⟨i, hi, hq⟩
    exact ⟨i, List.mem_range.mp hi, hq.symm⟩
  · rintro ⟨i, hi, hq⟩
    exact ⟨i, List.mem_range.mpr hi, hq.symm⟩

theorem wf_init (v : Nat) : WF (init v) := by
  refine ⟨rfl, ?_, ?_, ?_, ?_⟩ <;> simp [init, updateSortedPositions]

theorem wf_addServer (ch : ConsistentHash) (s : String) (h : WF ch) :
    WF (addServer ch s) := by
  by_cases hmem : s ∈ ch.servers
  · rwa [addServer_of_mem ch s hmem]
  · rw [addServer_of_not_mem ch s hmem]
    refine ⟨rfl, keys_setAll_nodup _ _ _ h.keys_nodup, ?_, ?_, ?_⟩
    · rw [List.nodup_append]
      refine ⟨h.servers_nodup, List.nodup_singleton s, fun t ht hts => ?_⟩
      have : t = s := by simpa using hts
      exact hmem (this ▸ ht)
    · intro e he
      rcases mem_setAll _ _ _ e he with he | he
      · exact List.mem_append_left _ (h.values_mem e he)
      · rw [he.1]
        exact List.mem_append_right _ (List.mem_singleton_self s)
    · intro e he
      rcases mem_setAll _ _ _ e he with he | he
      · exact h.pos_prov e he
      · obtain ⟨i, hi, hq⟩ := (mem_virtualPositions _ s e.1).mp he.2
        exact ⟨i, hi, by rw [hq, he.1]⟩

theorem wf_removeServer (ch : ConsistentHash) (s : String) (h : WF ch) :
    WF (removeServer ch s) := by
  by_cases hmem : s ∈ ch.servers
  · rw [removeServer_of_mem ch s hmem]
    refine ⟨rfl, keys_delAll_nodup _ _ h.keys_nodup, h.servers_nodup.filter _,
      ?_, ?_⟩
    · intro e he
      rw [mem_delAll] at he
      have hval := h.values_mem e he.1
      have hne : e.2 ≠ s := by
        intro heq
        obtain ⟨i, hi, hq⟩ := h.pos_prov e he.1
        exact he.2 ((mem_virtualPositions _ s e.1).mpr ⟨i, hi, by rw [hq, heq]⟩)
      exact List.mem_filter.mpr ⟨hval, by simpa using hne⟩
    · intro e he
      rw [mem_delAll] at he
      exact h.pos_prov e he.1
  · rwa [removeServer_of_not_mem ch s hmem]

theorem reachable_wf (ch : ConsistentHash) (h : Reachable ch) : WF ch := by
  induction h with
  | init v => exact wf_init v
  | add s _ ih => exact wf_addServer _ s ih
  | remove s _ ih => exact wf_removeServer _ s ih

theorem wf_sorted (ch : ConsistentHash) (h : WF ch) :
    ch.sortedPositions.Sorted (fun a b => a ≤ b) := by
  rw [h.sorted_sync]
  exact sorted_updateSortedPositions ch.ring

theorem wf_sp_mem (ch : ConsistentHash) (h : WF ch) (q : Nat) :
    q ∈ ch.sortedPositions ↔ q ∈ ch.ring.map Prod.fst := by
  rw [h.sorted_sync]
  exact mem_updateSortedPositions ch.ring q

theorem wf_sp_nil (ch : ConsistentHash) (h : WF ch) :
    ch.sortedPositions = [] ↔ ch.ring = [] := by
  rw [h.sorted_sync]
  exact updateSortedPositions_eq_nil_iff ch.ring

theorem getServer_unfold (ch : ConsistentHash) (key : String)
    (hne : ch.sortedPositions ≠ []) :
    getServer ch key =
      Except.ok (mapGet ch.ring
        (chosenPosition ch.sortedPositions (chash key))) := by
  unfold getServer
  rw [if_neg (fun h => hne (List.length_eq_zero.mp h))]

theorem getServer_char (ch : ConsistentHash) (key : String) (h : WF ch)
    (hne : ch.ring ≠ []) :
    getServer ch key =
      Except.ok (mapGet ch.ring
        (clockwiseSuccessor ch.sortedPositions (chash key))) := by
  have hspne : ch.sortedPositions ≠ [] := fun hsp => hne ((wf_sp_nil ch h).mp hsp)
  rw [getServer_unfold ch key hspne,
    chosenPosition_eq _ _ (wf_sorted ch h) hspne]

theorem getServer_ok (ch : ConsistentHash) (key : String) (h : WF ch)
    (hne : ch.ring ≠ []) :
    ∃ t, getServer ch key = Except.ok (some t) ∧ t ∈ ch.servers := by
  rw [getServer_char ch key h hne]
  have hspne : ch.sortedPositions ≠ [] := fun hsp => hne ((wf_sp_nil ch h).mp hsp)
  have hmem := clockwiseSuccessor_mem ch.sortedPositions (chash key) hspne
  rw [wf_sp_mem ch h] at hmem
  cases hmg : mapGet ch.ring (clockwiseSuccessor ch.sortedPositions (chash key)) with
  | none => exact absurd hmem ((mapGet_eq_none_iff _ _).mp hmg)
  | some v => exact ⟨v, rfl, h.values_mem _ (mapGet_mem _ _ _ hmg)⟩

theorem getServer_error_iff (ch : ConsistentHash) (key : String) (h : WF ch) :
    (∃ e, getServer ch key = Except.error e) ↔ ch.ring = [] := by
  constructor
  · rintro ⟨e, he⟩
    by_contra hne
    obtain ⟨t, ht, _⟩ := getServer_ok ch key h hne
    rw [ht] at he
    exact Except.noConfusion he
  · intro hnil
    refine ⟨"No servers available", ?_⟩
    unfold getServer
    rw [if_pos (by rw [(wf_sp_nil ch h).mpr hnil]; rfl)]

theorem getServer_not_unregistered (ch : ConsistentHash) (h : WF ch)
    (s : String) (hs : s ∉ ch.servers) (key : String) :
    getServer ch key ≠ Except.ok (some s) := by
  intro hgs
  unfold getServer at hgs
  by_cases hlen : ch.sortedPositions.length = 0
  · rw [if_pos hlen] at hgs
    exact Except.noConfusion hgs
  · rw [if_neg hlen] at hgs
    have hmg : mapGet ch.ring (chosenPosition ch.sortedPositions (chash key)) =
        some s := Except.ok.inj hgs
    exact hs (h.values_mem _ (mapGet_mem _ _ _ hmg))

theorem removeServer_ring (ch : ConsistentHash) (s : String)
    (hmem : s ∈ ch.servers) :
    (removeServer ch s).ring =
      delAll ch.ring (virtualPositions ch.virtualNodes s) := by
  rw [removeServer_of_mem ch s hmem]

theorem removeServer_servers (ch : ConsistentHash) (s : String)
    (hmem : s ∈ ch.servers) :
    (removeServer ch s).servers = ch.servers.filter (fun t => t != s) := by
  rw [removeServer_of_mem ch s hmem]

theorem addServer_ring (ch : ConsistentHash) (s : String)
    (hnew : s ∉ ch.servers) :
    (addServer ch s).ring =
      setAll ch.ring (virtualPositions ch.virtualNodes s) s := by
  rw [addServer_of_not_mem ch s hnew]

theorem addServer_servers (ch : ConsistentHash) (s : String)
    (hnew : s ∉ ch.servers) :
    (addServer ch s).servers = ch.servers ++ [s] := by
  rw [addServer_of_not_mem ch s hnew]

theorem getServer_removeServer_frame (ch : ConsistentHash) (s : String)
    (key : String) (hr : Reachable ch) (hmem : s ∈ ch.servers)
    (hne : ch.ring ≠ [])
    (hnot : clockwiseSuccessor ch.sortedPositions (chash key) ∉
      virtualPositions ch.virtualNodes s) :
    getServer (removeServer ch s) key = getServer ch key := by
  have h := reachable_wf ch hr
  have h2 := reachable_wf _ (Reachable.remove s hr)
  have hspne : ch.sortedPositions ≠ [] := fun hsp => hne ((wf_sp_nil ch h).mp hsp)
  have hcmem : clockwiseSuccessor ch.sortedPositions (chash key) ∈
      ch.sortedPositions := clockwiseSuccessor_mem _ _ hspne
  have hiff : ∀ q, q ∈ (removeServer ch s).sortedPositions ↔
      q ∈ ch.sortedPositions ∧ q ∉ virtualPositions ch.virtualNodes s := by
    intro q
    rw [wf_sp_mem _ h2, removeServer_ring ch s hmem, keys_delAll_mem,
      ← wf_sp_mem ch h]
  have hcmem2 : clockwiseSuccessor ch.sortedPositions (chash key) ∈
      (removeServer ch s).sortedPositions :=
    (hiff _).mpr ⟨hcmem, hnot⟩
  have hspne2 : (removeServer ch s).sortedPositions ≠ [] := by
    intro hnil
    rw [hnil] at hcmem2
    simp at hcmem2
  have hne2 : (removeServer ch s).ring ≠ [] :=
    fun hnil => hspne2 ((wf_sp_nil _ h2).mpr hnil)
  rw [getServer_char ch key h hne, getServer_char _ key h2 hne2]
  have hcs2 : clockwiseSuccessor (removeServer ch s).sortedPositions (chash key) =
      clockwiseSuccessor ch.sortedPositions (chash key) := by
    apply clockwiseSuccessor_unique _ _ _ hspne2
    rcases clockwiseSuccessor_spec ch.sortedPositions (chash key) hspne with hs1 | hs1
    · exact Or.inl ⟨hcmem2, hs1.2.1,
        fun x hx hpx => hs1.2.2 x ((hiff x).mp hx).1 hpx⟩
    · exact Or.inr ⟨fun x hx => hs1.1 x ((hiff x).mp hx).1, hcmem2,
        fun x hx => hs1.2.2 x ((hiff x).mp hx).1⟩
  rw [hcs2, removeServer_ring ch s hmem, mapGet_delAll, if_neg hnot]

theorem getServer_addServer_frame (ch : ConsistentHash) (s : String)
    (key : String) (hr : Reachable ch) (hnew : s ∉ ch.servers)
    (hne2 : (addServer ch s).ring ≠ [])
    (hnot : clockwiseSuccessor (addServer ch s).sortedPositions (chash key) ∉
      virtualPositions ch.virtualNodes s) :
    getServer (addServer ch s) key = getServer ch key := by
  have h := reachable_wf ch hr
  have h2 := reachable_wf _ (Reachable.add s hr)
  have hspne2 : (addServer ch s).sortedPositions ≠ [] :=
    fun hsp => hne2 ((wf_sp_nil _ h2).mp hsp)
  have hiff : ∀ q, q ∈ (addServer ch s).sortedPositions ↔
      q ∈ ch.sortedPositions ∨ q ∈ virtualPositions ch.virtualNodes s := by
    intro q
    rw [wf_sp_mem _ h2, addServer_ring ch s hnew, keys_setAll_mem,
      ← wf_sp_mem ch h]
  have hcmem2 : clockwiseSuccessor (addServer ch s).sortedPositions (chash key) ∈
      (addServer ch s).sortedPositions := clockwiseSuccessor_mem _ _ hspne2
  have hcmem : clockwiseSuccessor (addServer ch s).sortedPositions (chash key) ∈
      ch.sortedPositions := by
    rcases (hiff _).mp hcmem2 with hc | hc
    · exact hc
    · exact absurd hc hnot
  have hspne : ch.sortedPositions ≠ [] := by
    intro hnil
    rw [hnil] at hcmem
    simp at hcmem
  have hne : ch.ring ≠ [] := fun hnil => hspne ((wf_sp_nil ch h).mpr hnil)
  rw [getServer_char ch key h hne, getServer_char _ key h2 hne2]
  have hcs : clockwiseSuccessor ch.sortedPositions (chash key) =
      clockwiseSuccessor (addServer ch s).sortedPositions (chash key) := by
    apply clockwiseSuccessor_unique _ _ _ hspne
    rcases clockwiseSuccessor_spec (addServer ch s).sortedPositions (chash key)
        hspne2 with hs1 | hs1
    · exact Or.inl ⟨hcmem, hs1.2.1,
        fun x hx hpx => hs1.2.2 x ((hiff x).mpr (Or.inl hx)) hpx⟩
    · exact Or.inr ⟨fun x hx => hs1.1 x ((hiff x).mpr (Or.inl hx)), hcmem,
        fun x hx => hs1.2.2 x ((hiff x).mpr (Or.inl hx))⟩
  rw [← hcs, addServer_ring ch s hnew, mapGet_setAll, if_neg (hcs ▸ hnot)]

theorem getServer_empty (ch : ConsistentHash) (h : WF ch)
    (hnil : ch.ring = []) (key : String) :
    getServer ch key = Except.error "No servers available" := by
  unfold getServer
  rw [if_pos (by rw [(wf_sp_nil ch h).mpr hnil]; rfl)]

theorem bump_fst (d : List (String × Nat)) (o : Option String) :
    (bump d o).map Prod.fst = d.map Prod.fst := by
  cases o with
  | none => rfl
  | some t =>
    unfold bump
    rw [List.map_map]
    refine List.map_congr_left (fun e _ => ?_)
    by_cases h : e.1 = t <;> simp [h]

theorem mem_bump_eq (d : List (String × Nat)) (s : String) (c : Nat)
    (h : (s, c) ∈ d) : (s, c + 1) ∈ bump d (some s) := by
  unfold bump
  exact List.mem_map.mpr ⟨(s, c), h, by simp⟩

theorem mem_bump_ne (d : List (String × Nat)) (s : String) (c : Nat)
    (o : Option String) (h : (s, c) ∈ d) (hne : o ≠ some s) :
    (s, c) ∈ bump d o := by
  cases o with
  | none => exact h
  | some t =>
    unfold bump
    refine List.mem_map.mpr ⟨(s, c), h, ?_⟩
    have hts : ¬(s = t) := fun hh => hne (by rw [hh])
    simp [hts]

theorem bump_foldl_count (f : String → Option String) (ks : List String)
    (d : List (String × Nat)) (s : String) (c : Nat) (hmem : (s, c) ∈ d) :
    (s, c + (ks.filter (fun k => f k == some s)).length) ∈
      ks.foldl (fun d k => bump d (f k)) d ∧
    (ks.foldl (fun d k => bump d (f k)) d).map Prod.fst = d.map Prod.fst := by
  induction ks generalizing d c with
  | nil => exact ⟨by simpa using hmem, rfl⟩
  | cons k ks ih =>
    rw [List.foldl_cons]
    by_cases hk : f k = some s
    · have h1 : (s, c + 1) ∈ bump d (f k) := hk ▸ mem_bump_eq d s c hmem
      have hrec := ih (bump d (f k)) (c + 1) h1
      refine ⟨?_, by rw [hrec.2, bump_fst]⟩
      rw [List.filter_cons_of_pos (by simp [hk]), List.length_cons]
      have harith : c + ((ks.filter (fun k => f k == some s)).length + 1) =
          c + 1 + (ks.filter (fun k => f k == some s)).length := by omega
      rw [harith]
      exact hrec.1
    · have h1 : (s, c) ∈ bump d (f k) := mem_bump_ne d s c (f k) hmem hk
      have hrec := ih (bump d (f k)) c h1
      refine ⟨?_, by rw [hrec.2, bump_fst]⟩
      rw [List.filter_cons_of_neg (by simp [hk])]
      exact hrec.1

theorem getDistribution_fold (ch : ConsistentHash)
    (hne : ch.sortedPositions ≠ []) :
    getDistribution ch = Except.ok
      (sampleKeys.foldl
        (fun d k => bump d (exceptValD (getServer ch k)))
        (ch.servers.map (fun s => (s, 0)))) := by
  unfold getDistribution sampleKeys
  generalize (ch.servers.map (fun s => (s, 0))) = d
  induction (List.range 10000) generalizing d with
  | nil => rfl
  | cons i l ih =>
    rw [List.foldlM_cons, List.map_cons, List.foldl_cons,
      getServer_unfold ch _ hne]
    exact ih (bump d (exceptValD (Except.ok (mapGet ch.ring
      (chosenPosition ch.sortedPositions (chash ("key_" ++ toString i)))))))

theorem bump_foldl_fst (f : String → Option String) (ks : List String)
    (d : List (String × Nat)) :
    (ks.foldl (fun d k => bump d (f k)) d).map Prod.fst = d.map Prod.fst := by
  induction ks generalizing d with
  | nil => rfl
  | cons k ks ih => rw [List.foldl_cons, ih, bump_fst]

/-- C1: for every key and every reachable ring state with at least one entry
in the ring index, `getServer key` returns the ring's value at the smallest
element of `sortedPositions` that is `≥ hash key` — or, when no such
element exists, at the first (smallest) element of `sortedPositions`
(wraparound) — i.e. at `clockwiseSuccessor sortedPositions (hash key)`. -/
theorem C1_lookup_clockwise_successor (ch : ConsistentHash) (key : String)
    (hr : Reachable ch) (hne : ch.ring ≠ []) :
    getServer ch key =
      Except.ok (mapGet ch.ring
        (clockwiseSuccessor ch.sortedPositions (chash key))) :=
  getServer_char ch key (reachable_wf ch hr) hne

/-- Witness for C1 at the one-server ring `chA` and the key `"k"`. -/
theorem C1_lookup_clockwise_successor_witness :
    Reachable chA ∧ chA.ring ≠ [] ∧
    getServer chA "k" =
      Except.ok (mapGet chA.ring
        (clockwiseSuccessor chA.sortedPositions (chash "k"))) :=
  ⟨Reachable.add "a" (Reachable.init 1), by decide,
    C1_lookup_clockwise_successor chA "k"
      (Reachable.add "a" (Reachable.init 1)) (by decide)⟩

/-- C2 counterexample: `chCollide` is reachable (add `"m0b"`, add `"srh"`,
remove `"srh"` with one virtual node per server), has the positive virtual
node count `1` and the registered server `"m0b"`, yet `getServer` throws
`No servers available`, because `hash("m0b:0") = hash("srh:0")`, so adding
`"srh"` overwrote `"m0b"`'s only ring entry and removing `"srh"` deleted
it.  This refutes "fails iff zero servers are registered". -/
theorem C2_totality_counterexample :
    Reachable chCollide ∧ chCollide.servers = ["m0b"] ∧
    0 < chCollide.virtualNodes ∧
    getServer chCollide "k" = Except.error "No servers available" :=
  ⟨Reachable.remove "srh" (Reachable.add "srh"
      (Reachable.add "m0b" (Reachable.init 1))),
    by decide, by decide, rfl⟩

/-- C2 (amended): for every reachable state, `getServer` fails (with
`NoServersAvailable`) iff the ring index is empty; zero registered servers
still implies an empty ring index (the converse can fail when two servers'
virtual-node hashes collide); and on a ring with at least one entry,
`getServer` succeeds with a server identifier for every key. -/
theorem C2_totality_amended (ch : ConsistentHash) (key : String)
    (hr : Reachable ch) :
    ((∃ e, getServer ch key = Except.error e) ↔ ch.ring = []) ∧
    (ch.servers = [] → ch.ring = []) ∧
    (ch.ring ≠ [] → ∃ t, getServer ch key = Except.ok (some t)) := by
  have h := reachable_wf ch hr
  refine ⟨getServer_error_iff ch key h, ?_, ?_⟩
  · intro hsrv
    cases hring : ch.ring with
    | nil => rfl
    | cons e rest =>
      have hv := h.values_mem e (by rw [hring]; exact List.mem_cons_self e rest)
      rw [hsrv] at hv
      simp at hv
  · intro hne
    obtain ⟨t, ht, _⟩ := getServer_ok ch key h hne
    exact ⟨t, ht⟩

/-- Witness for the amended C2 at the one-server ring `chA`. -/
theorem C2_totality_amended_witness :
    Reachable chA ∧
    (((∃ e, getServer chA "k" = Except.error e) ↔ chA.ring = []) ∧
      (chA.servers = [] → chA.ring = []) ∧
      (chA.ring ≠ [] → ∃ t, getServer chA "k" = Except.ok (some t))) :=
  ⟨Reachable.add "a" (Reachable.init 1),
    C2_totality_amended chA "k" (Reachable.add "a" (Reachable.init 1))⟩

/-- C3: on a reachable state containing server `s` with a non-empty ring,
a key whose clockwise successor is not one of `s`'s virtual-node positions
keeps its assignment after `removeServer s`; and every key is afterwards
assigned via the ring value at the next surviving position clockwise
(provided a position survives). -/
theorem C3_remove_redistribution (ch : ConsistentHash) (s : String)
    (key : String) (hr : Reachable ch) (hmem : s ∈ ch.servers)
    (hne : ch.ring ≠ []) :
    (clockwiseSuccessor ch.sortedPositions (chash key) ∉
        virtualPositions ch.virtualNodes s →
      getServer (removeServer ch s) key = getServer ch key) ∧
    ((removeServer ch s).ring ≠ [] →
      getServer (removeServer ch s) key =
        Except.ok (mapGet (removeServer ch s).ring
          (clockwiseSuccessor (removeServer ch s).sortedPositions
            (chash key)))) :=
  ⟨fun hnot => getServer_removeServer_frame ch s key hr hmem hne hnot,
   fun hne2 => getServer_char _ key
     (reachable_wf _ (Reachable.remove s hr)) hne2⟩

/-- Witness for C3: removing `"b"` from the two-server ring `chAB` leaves
the key `"k"` (whose successor is `"a"`'s virtual node) unchanged. -/
theorem C3_remove_redistribution_witness :
    Reachable chAB ∧ "b" ∈ chAB.servers ∧ chAB.ring ≠ [] ∧
    clockwiseSuccessor chAB.sortedPositions (chash "k") ∉
      virtualPositions chAB.virtualNodes "b" ∧
    getServer (removeServer chAB "b") "k" = getServer chAB "k" :=
  ⟨Reachable.add "b" (Reachable.add "a" (Reachable.init 1)),
    by decide, by decide, by decide,
    (C3_remove_redistribution chAB "b" "k"
        (Reachable.add "b" (Reachable.add "a" (Reachable.init 1)))
        (by decide) (by decide)).1 (by decide)⟩

/-- C4: adding a fresh server `s` to a reachable state either leaves a
key's `getServer` result unchanged or moves it to `s`; and a key whose
clockwise successor in the grown ring is not one of `s`'s virtual-node
positions keeps exactly its previous assignment. -/
theorem C4_add_redistribution (ch : ConsistentHash) (s : String)
    (key : String) (hr : Reachable ch) (hnew : s ∉ ch.servers) :
    (getServer (addServer ch s) key ≠ getServer ch key →
      getServer (addServer ch s) key = Except.ok (some s)) ∧
    ((addServer ch s).ring ≠ [] →
      clockwiseSuccessor (addServer ch s).sortedPositions (chash key) ∉
        virtualPositions ch.virtualNodes s →
      getServer (addServer ch s) key = getServer ch key) := by
  have h := reachable_wf ch hr
  have h2 := reachable_wf _ (Reachable.add s hr)
  constructor
  · intro hchange
    by_cases hne2 : (addServer ch s).ring = []
    · exfalso
      have hnil : ch.ring = [] := by
        cases hring : ch.ring with
        | nil => rfl
        | cons e rest =>
          have hk : e.1 ∈ (addServer ch s).ring.map Prod.fst := by
            rw [addServer_ring ch s hnew, keys_setAll_mem]
            exact Or.inl (by
              rw [hring]
              exact List.mem_map.mpr ⟨e, List.mem_cons_self _ _, rfl⟩)
          rw [hne2] at hk
          simp at hk
      rw [getServer_empty _ h2 hne2 key, getServer_empty ch h hnil key]
        at hchange
      exact hchange rfl
    · by_cases hcs : clockwiseSuccessor (addServer ch s).sortedPositions
          (chash key) ∈ virtualPositions ch.virtualNodes s
      · rw [getServer_char _ key h2 hne2, addServer_ring ch s hnew,
          mapGet_setAll, if_pos hcs]
      · exact absurd (getServer_addServer_frame ch s key hr hnew hne2 hcs)
          hchange
  · intro hne2 hcs
    exact getServer_addServer_frame ch s key hr hnew hne2 hcs

/-- Witness for C4: adding `"b"` to the one-server ring `chA` leaves the
key `"k"` (whose successor in the grown ring is `"a"`'s virtual node)
unchanged. -/
theorem C4_add_redistribution_witness :
    Reachable chA ∧ "b" ∉ chA.servers ∧ (addServer chA "b").ring ≠ [] ∧
    clockwiseSuccessor (addServer chA "b").sortedPositions (chash "k") ∉
      virtualPositions chA.virtualNodes "b" ∧
    getServer (addServer chA "b") "k" = getServer chA "k" :=
  ⟨Reachable.add "a" (Reachable.init 1), by decide, by decide, by decide,
    (C4_add_redistribution chA "b" "k"
        (Reachable.add "a" (Reachable.init 1)) (by decide)).2
      (by decide) (by decide)⟩

/-- C5: after every reachable sequence of public operations,
`sortedPositions` is exactly the rebuilt `updateSortedPositions` of the
ring — an ascending-sorted permutation of the ring index's keys — so no
lookup ever reads a stale `sortedPositions`. -/
theorem C5_sorted_positions_sync (ch : ConsistentHash) (hr : Reachable ch) :
    ch.sortedPositions = updateSortedPositions ch.ring ∧
    ch.sortedPositions.Sorted (fun a b => a ≤ b) ∧
    ch.sortedPositions.Perm (ch.ring.map Prod.fst) := by
  have h := reachable_wf ch hr
  exact ⟨h.sorted_sync, wf_sorted ch h,
    by rw [h.sorted_sync]; exact perm_updateSortedPositions _⟩

/-- Witness for C5 at the two-server ring `chAB`. -/
theorem C5_sorted_positions_sync_witness :
    Reachable chAB ∧
    (chAB.sortedPositions = updateSortedPositions chAB.ring ∧
      chAB.sortedPositions.Sorted (fun a b => a ≤ b) ∧
      chAB.sortedPositions.Perm (chAB.ring.map Prod.fst)) :=
  ⟨Reachable.add "b" (Reachable.add "a" (Reachable.init 1)),
    C5_sorted_positions_sync chAB
      (Reachable.add "b" (Reachable.add "a" (Reachable.init 1)))⟩

/-- C6: after `addServer s` followed by `removeServer s` on any reachable
state, none of `s`'s virtual-node positions has a ring entry, `s` is not
registered, and `getServer` never returns `s`. -/
theorem C6_removal_completeness (ch : ConsistentHash) (s : String)
    (key : String) (hr : Reachable ch) :
    (∀ i, i < ch.virtualNodes →
      mapGet (removeServer (addServer ch s) s).ring
        (chash (virtualKey s i)) = none) ∧
    s ∉ (removeServer (addServer ch s) s).servers ∧
    getServer (removeServer (addServer ch s) s) key ≠
      Except.ok (some s) := by
  have hsmem : s ∈ (addServer ch s).servers := by
    by_cases hmem : s ∈ ch.servers
    · rw [addServer_of_mem ch s hmem]
      exact hmem
    · rw [addServer_servers ch s hmem]
      exact List.mem_append_right _ (List.mem_singleton_self s)
  have hv : (addServer ch s).virtualNodes = ch.virtualNodes :=
    virtualNodes_addServer ch s
  have hs2 : s ∉ (removeServer (addServer ch s) s).servers := by
    rw [removeServer_servers _ s hsmem]
    intro hmem
    have hts := (List.mem_filter.mp hmem).2
    simp at hts
  refine ⟨?_, hs2, ?_⟩
  · intro i hi
    rw [removeServer_ring _ s hsmem, mapGet_delAll,
      if_pos ((mem_virtualPositions _ s _).mpr ⟨i, by rw [hv]; exact hi, rfl⟩)]
  · exact getServer_not_unregistered _
      (reachable_wf _ (Reachable.remove s (Reachable.add s hr))) s hs2 key

/-- Witness for C6: add then remove `"b"` on the one-server ring `chA`. -/
theorem C6_removal_completeness_witness :
    Reachable chA ∧ 0 < chA.virtualNodes ∧
    mapGet (removeServer (addServer chA "b") "b").ring
      (chash (virtualKey "b" 0)) = none ∧
    "b" ∉ (removeServer (addServer chA "b") "b").servers ∧
    getServer (removeServer (addServer chA "b") "b") "k" ≠
      Except.ok (some "b") := by
  have hr : Reachable chA := Reachable.add "a" (Reachable.init 1)
  have hc := C6_removal_completeness chA "b" "k" hr
  exact ⟨hr, by decide, hc.1 0 (by decide), hc.2.1, hc.2.2⟩

/-- C7: `addServer s` on a freshly constructed ring with `virtualNodes = v`
produces a ring index whose entries all map to `s`, with at most `v`
entries, and exactly `v` entries when `s`'s `v` virtual-node hashes are
pairwise distinct. -/
theorem C7_virtual_node_count (v : Nat) (s : String) :
    (∀ e ∈ (addServer (init v) s).ring, e.2 = s) ∧
    (addServer (init v) s).ring.length ≤ v ∧
    ((virtualPositions v s).Nodup → (addServer (init v) s).ring.length = v) := by
  have hnm : s ∉ (init v).servers := by simp [init]
  have hring : (addServer (init v) s).ring =
      setAll [] (virtualPositions v s) s := addServer_ring _ s hnm
  have hlenvp : (virtualPositions v s).length = v := by
    simp [virtualPositions]
  refine ⟨?_, ?_, ?_⟩
  · intro e he
    rw [hring] at he
    rcases mem_setAll _ _ _ e he with he | he
    · simp at he
    · exact he.1
  · rw [hring]
    have hle := length_setAll_le [] (virtualPositions v s) s
    simpa [hlenvp] using hle
  · intro hnd
    rw [hring, length_setAll_fresh [] _ s hnd (by simp)]
    simpa using hlenvp

/-- Witness for C7 at `v = 3`, `s = "server1"`: the three virtual-node
hashes are distinct and the ring gets exactly three entries. -/
theorem C7_virtual_node_count_witness :
    (virtualPositions 3 "server1").Nodup ∧
    (addServer (init 3) "server1").ring.length = 3 :=
  ⟨by decide, (C7_virtual_node_count 3 "server1").2.2 (by decide)⟩

/-- C8: adding an already-registered server and removing an unregistered
one are no-ops that leave the whole state identical (so `addServer` twice
equals `addServer` once), and in the embedding both calls are total
functions — no error is raised. -/
theorem C8_idempotent_membership (ch : ConsistentHash) (s : String) :
    (s ∈ ch.servers → addServer ch s = ch) ∧
    addServer (addServer ch s) s = addServer ch s ∧
    (s ∉ ch.servers → removeServer ch s = ch) := by
  refine ⟨addServer_of_mem ch s, ?_, removeServer_of_not_mem ch s⟩
  by_cases hmem : s ∈ ch.servers
  · rw [addServer_of_mem ch s hmem, addServer_of_mem ch s hmem]
  · have hs : s ∈ (addServer ch s).servers := by
      rw [addServer_servers ch s hmem]
      exact List.mem_append_right _ (List.mem_singleton_self s)
    exact addServer_of_mem _ s hs

/-- Witness for C8: duplicate `addServer "a"` on `chA` and absent
`removeServer "x"` on a fresh ring are both no-ops. -/
theorem C8_idempotent_membership_witness :
    ("a" ∈ chA.servers ∧ addServer chA "a" = chA) ∧
    addServer (addServer chA "a") "a" = addServer chA "a" ∧
    ("x" ∉ (init 1).servers ∧ removeServer (init 1) "x" = init 1) :=
  ⟨⟨by decide, (C8_idempotent_membership chA "a").1 (by decide)⟩,
    (C8_idempotent_membership chA "a").2.1,
    ⟨by decide, (C8_idempotent_membership (init 1) "x").2.2 (by decide)⟩⟩

/-- C9: on a reachable state with a non-empty `sortedPositions` (so no
`getServer` call throws), `getDistribution` returns one count per
currently-registered server — initialised to zero, then incremented by the
one `getServer` call made for each of the 10000 sample keys — so server
`s`'s final count is the number of sample keys assigned to `s`.  The
embedding's `getDistribution` is a pure function of the state (the source
method only reads `this.servers` and calls `getServer`), so the ring state
is not mutated. -/
theorem C9_distribution_counts (ch : ConsistentHash) (_hr : Reachable ch)
    (hne : ch.sortedPositions ≠ []) :
    ∃ d, getDistribution ch = Except.ok d ∧
      d.map Prod.fst = ch.servers ∧
      ∀ s ∈ ch.servers,
        (s, (sampleKeys.filter (assignedTo ch s)).length) ∈ d := by
  refine ⟨_, getDistribution_fold ch hne, ?_, ?_⟩
  · rw [bump_foldl_fst (fun k => exceptValD (getServer ch k)) sampleKeys,
      List.map_map]
    have hid : (Prod.fst ∘ fun s : String => (s, (0 : Nat))) = id := rfl
    rw [hid, List.map_id]
  · intro s hs
    have h0 : (s, 0) ∈ ch.servers.map (fun s => (s, 0)) :=
      List.mem_map.mpr ⟨s, hs, rfl⟩
    have hcount := (bump_foldl_count (fun k => exceptValD (getServer ch k))
      sampleKeys _ s 0 h0).1
    show (s, (sampleKeys.filter
      (fun k => exceptValD (getServer ch k) == some s)).length) ∈ _
    rw [← Nat.zero_add (sampleKeys.filter
      (fun k => exceptValD (getServer ch k) == some s)).length]
    exact hcount

/-- Witness for C9 at the one-server ring `chA` (where every key is
assigned to `"a"`). -/
theorem C9_distribution_counts_witness :
    Reachable chA ∧ chA.sortedPositions ≠ [] ∧
    (∃ d, getDistribution chA = Except.ok d ∧
      d.map Prod.fst = chA.servers ∧
      ∀ s ∈ chA.servers,
        (s, (sampleKeys.filter (assignedTo chA s)).length) ∈ d) := by
  have hr : Reachable chA := Reachable.add "a" (Reachable.init 1)
  exact ⟨hr, by decide, C9_distribution_counts chA hr (by decide)⟩

/-- C10: in every reachable state, every ring value is a registered
server, so `getServer` on a state with at least one ring entry returns a
currently-registered server identifier. -/
theorem C10_values_registered (ch : ConsistentHash) (hr : Reachable ch) :
    (∀ e ∈ ch.ring, e.2 ∈ ch.servers) ∧
    (ch.ring ≠ [] → ∀ key, ∃ t,
      getServer ch key = Except.ok (some t) ∧ t ∈ ch.servers) := by
  have h := reachable_wf ch hr
  exact ⟨h.values_mem, fun hne key => getServer_ok ch key h hne⟩

/-- Witness for C10 at the two-server ring `chAB`. -/
theorem C10_values_registered_witness :
    Reachable chAB ∧ chAB.ring ≠ [] ∧
    (∀ e ∈ chAB.ring, e.2 ∈ chAB.servers) ∧
    (∃ t, getServer chAB "k" = Except.ok (some t) ∧ t ∈ chAB.servers) := by
  have hr : Reachable chAB :=
    Reachable.add "b" (Reachable.add "a" (Reachable.init 1))
  have hc := C10_values_registered chAB hr
  exact ⟨hr, by decide, hc.1, hc.2 (by decide) "k"⟩

end ConsistentHash
